import Mathlib

/-!
Verification development for the nes-disasm6 repository (src/disasm.py and
src/inlretro.py): a shallow embedding of the 6502 opcode decoder, the bank
component classifier, base-address inference, label resolution, the absolute
operand formatter, and the INLRetro dump driver, together with theorems
settling the frozen claims about them.

Machine bytes are modelled as `Nat` (callers supply values < 256); Python
lists become `List`, Python `None`-able results become `Option`, code that
can raise becomes `Except String`.
-/

namespace Disasm

/-- One lowercase hex digit, as Python's `%x` formatting produces. -/
def hexDigitChar (n : Nat) : Char :=
  Char.ofNat (if n < 10 then 48 + n else 87 + n)

/-- Hex digits of `n` (most significant first); `fuel` bounds the recursion
and any `fuel > n` is enough. -/
def hexDigitsAux : Nat → Nat → List Char
  | 0, _ => []
  | fuel + 1, n =>
      if n < 16 then [hexDigitChar n]
      else hexDigitsAux fuel (n / 16) ++ [hexDigitChar (n % 16)]

/-- Python `f'{n:04x}'`: lowercase hex, zero-padded to at least 4 digits. -/
def hex4 (n : Nat) : String :=
  let ds := hexDigitsAux (n + 1) n
  String.mk (List.replicate (4 - ds.length) '0' ++ ds)

/-- Python `f'{n:02x}'`: lowercase hex, zero-padded to at least 2 digits. -/
def hex2 (n : Nat) : String :=
  let ds := hexDigitsAux (n + 1) n
  String.mk (List.replicate (2 - ds.length) '0' ++ ds)

/-- Python list indexing with possibly negative index (negative counts from
the end); out-of-range returns `""` (the source never indexes out of range
at the call sites that use this). -/
def pyGet (l : List String) (i : Int) : String :=
  if i < 0 then l.getD (l.length - (-i).toNat) "" else l.getD i.toNat ""

/-- Python `range(start, stop, step)` for a positive step. -/
def pyRange (start stop step : Nat) : List Nat :=
  List.range' start ((stop - start + step - 1) / step) step

/-- The `mmio` register-name dictionary from the top of src/disasm.py. -/
def mmio : List (Nat × String) :=
  [ (0x2000, "PPUCTRL"), (0x2001, "PPUMASK"), (0x2002, "PPUSTATUS"),
    (0x2003, "OAMADDR"), (0x2004, "OAMDATA"), (0x2005, "PPUSCROLL"),
    (0x2006, "PPUADDR"), (0x2007, "PPUDATA"),
    (0x4000, "SQ1_VOL"), (0x4001, "SQ1_SWEEP"), (0x4002, "SQ1_LO"),
    (0x4003, "SQ1_HI"), (0x4004, "SQ2_VOL"), (0x4005, "SQ2_SWEEP"),
    (0x4006, "SQ2_LO"), (0x4007, "SQ2_HI"), (0x4008, "TRI_LINEAR"),
    (0x400A, "TRI_LO"), (0x400B, "TRI_HI"), (0x400C, "NOISE_VOL"),
    (0x400E, "NOISE_PER"), (0x400F, "NOISE_LEN"), (0x4010, "DMC_FREQ"),
    (0x4011, "DMC_RAW"), (0x4012, "DMC_START"), (0x4013, "DMC_LEN"),
    (0x4014, "OAMDMA"), (0x4015, "SND_CHN"), (0x4016, "JOY1"),
    (0x4017, "JOY2") ]

/-- Python `addr in mmio` / `mmio[addr]`. -/
def mmioName (addr : Nat) : Option String :=
  (mmio.find? (fun p => p.1 == addr)).map (fun p => p.2)

/-- `OpType` from src/disasm.py. -/
inductive OpTy where
  | implied | immediate | accumulator | branch | zeropage | absolute | indirect
deriving DecidableEq, BEq

/-- `Indexing` from src/disasm.py. -/
inductive Idx where
  | none | x | y
deriving DecidableEq, BEq

/-- `Indexing.__str__`. -/
def idxStr : Idx → String
  | Idx.none => ""
  | Idx.x => "x"
  | Idx.y => "y"

def aluOps : List String := ["ora", "and", "eor", "adc", "sta", "lda", "cmp", "sbc"]
def rmwOps : List String := ["asl", "rol", "lsr", "ror", "stx", "ldx", "dec", "inc"]
def styFam : List String := ["sty", "ldy", "cpy", "cpx"]

/-- `Instruction.implied`: the mnemonic it assigns, `""` when it returns False. -/
def impliedOp (opcode : Nat) : String :=
  let op := ""
  let op := if opcode &&& 0xf == 0x8 then
      (["php", "clc", "plp", "sec", "pha", "cli", "pla", "sei",
        "dey", "tya", "tay", "clv", "iny", "cld", "inx", "sed"]).getD (opcode >>> 4) ""
    else op
  let op := if opcode == 0x40 then "rti" else op
  let op := if opcode == 0x60 then "rts" else op
  let op := if opcode &&& 0x8f == 0x8a then
      (["txa", "txs", "tax", "tsx", "dex", "", "nop", ""]).getD ((opcode >>> 4) - 8) ""
    else op
  op

/-- `Instruction.accumulator`. -/
def accumulatorOp (opcode : Nat) : String :=
  if opcode &&& 0x9f == 0x0a then (["asl", "rol", "lsr", "ror"]).getD (opcode >>> 5) ""
  else ""

/-- `Instruction.immediate`.  The `(opcode >> 5) - 8` index is negative in
Python (opcodes 0x80..0xe0 shift to 4..7), hence `pyGet` with an `Int`. -/
def immediateOp (opcode : Nat) : String :=
  let op := ""
  let op := if opcode &&& 0x1f == 0x09 then
      (["ora", "and", "eor", "adc", "", "lda", "cmp", "sbc"]).getD (opcode >>> 5) ""
    else op
  let op := if opcode &&& 0x9f == 0x80 then
      pyGet ["", "ldy", "cpy", "cpx"] ((opcode >>> 5 : Nat) - (8 : Int))
    else op
  let op := if opcode == 0xa2 then "ldx" else op
  op

/-- `Instruction.zeropage` mnemonic part. -/
def zeropageOp (opcode : Nat) : String :=
  let op := ""
  let op := if opcode &&& 0xf == 5 then aluOps.getD (opcode >>> 5) "" else op
  let op := if opcode &&& 0xf == 6 then rmwOps.getD (opcode >>> 5) "" else op
  let op := if opcode == 0x24 then "bit" else op
  let op := if opcode ∈ [0x84, 0x94, 0xa4, 0xb4, 0xc4, 0xe4] then
      pyGet styFam ((opcode >>> 5 : Nat) - (8 : Int))
    else op
  op

/-- `Instruction.zeropage` indexing part (applied only on success). -/
def zeropageIdx (opcode : Nat) : Idx :=
  let idx := Idx.none
  let idx := if opcode &&& 0x10 == 0x10 then Idx.x else idx
  let idx := if opcode ∈ [0x96, 0xb6] then Idx.y else idx
  idx

/-- `Instruction.absolute` mnemonic part (0x9c and 0x9e are rejected first). -/
def absoluteOp (opcode : Nat) : String :=
  if opcode ∈ [0x9c, 0x9e] then ""
  else
    let op := ""
    let op := if opcode == 0x20 then "jsr" else op
    let op := if opcode == 0x4c then "jmp" else op
    let op := if opcode &&& 0x1f == 0x19 then aluOps.getD (opcode >>> 5) "" else op
    let op := if opcode &&& 0xf == 0xd then aluOps.getD (opcode >>> 5) "" else op
    let op := if opcode &&& 0xf == 0xe then rmwOps.getD (opcode >>> 5) "" else op
    let op := if opcode == 0x2c then "bit" else op
    let op := if opcode ∈ [0x8c, 0xac, 0xbc, 0xcc, 0xec] then
        pyGet styFam ((opcode >>> 5 : Nat) - (8 : Int))
      else op
    op

/-- `Instruction.absolute` indexing part (applied only on success). -/
def absoluteIdx (opcode : Nat) : Idx :=
  let idx := Idx.none
  let idx := if opcode &&& 0x10 == 0x10 then Idx.x else idx
  let idx := if opcode == 0xbe || opcode &&& 0x1f == 0x19 then Idx.y else idx
  idx

/-- `Instruction.branch`. -/
def branchOp (opcode : Nat) : String :=
  if opcode &&& 0x1f == 0x10 then
    (["bpl", "bmi", "bvc", "bvs", "bcc", "bcs", "bne", "beq"]).getD (opcode >>> 5) ""
  else ""

/-- `Instruction.indirect` mnemonic part. -/
def indirectOp (opcode : Nat) : String :=
  if opcode &&& 0xf == 1 then aluOps.getD (opcode >>> 5) "" else ""

/-- `Instruction.indirect` indexing part (applied only on success). -/
def indirectIdx (opcode : Nat) : Idx :=
  if (opcode >>> 4) &&& 1 == 1 then Idx.y else Idx.x

/-- Result of the decode chain in `Instruction.__init__`: mnemonic,
addressing mode (`none` when no branch matched: the Python object then has
no `type` attribute), indexing, and byte length (`0` = not decodable). -/
structure DecodeRes where
  op : String
  ty : Option OpTy
  idx : Idx
  size : Nat
deriving DecidableEq, BEq

/-- The decode chain of `Instruction.__init__` (src/disasm.py lines
352-389).  `hasB1` / `hasB2` model `b1 is not None` / `b2 is not None`. -/
def decodeOp (opcode : Nat) (hasB1 hasB2 dq_brk : Bool) : DecodeRes :=
  if hasB2 && (opcode == 0x6c) then ⟨"jmp", some OpTy.indirect, Idx.none, 3⟩
  else if hasB2 && (opcode == 0x00) then
    ⟨"brk", some OpTy.implied, Idx.none, if dq_brk then 3 else 2⟩
  else if impliedOp opcode != "" then ⟨impliedOp opcode, some OpTy.implied, Idx.none, 1⟩
  else if accumulatorOp opcode != "" then
    ⟨accumulatorOp opcode, some OpTy.accumulator, Idx.none, 1⟩
  else if hasB1 && (immediateOp opcode != "") then
    ⟨immediateOp opcode, some OpTy.immediate, Idx.none, 2⟩
  else if hasB1 && (zeropageOp opcode != "") then
    ⟨zeropageOp opcode, some OpTy.zeropage, zeropageIdx opcode, 2⟩
  else if hasB1 && (indirectOp opcode != "") then
    ⟨indirectOp opcode, some OpTy.indirect, indirectIdx opcode, 2⟩
  else if hasB1 && (branchOp opcode != "") then
    ⟨branchOp opcode, some OpTy.branch, Idx.none, 2⟩
  else if hasB2 && (absoluteOp opcode != "") then
    ⟨absoluteOp opcode, some OpTy.absolute, absoluteIdx opcode, 3⟩
  else ⟨"", none, Idx.none, 0⟩

/-- A decoded `Instruction` (the fields of the Python object that the
claims depend on). -/
structure Instruction where
  position : Nat
  opcode : Nat
  op : String
  ty : Option OpTy
  indexing : Idx
  size : Nat
  bytes : List Nat
deriving DecidableEq, BEq

/-- `Instruction.__init__(position, bank, _bytes, dq_brk)`: decode the first
byte, then truncate the stored bytes to the decoded size.  Called with a
nonempty byte list (the Python would raise on `_bytes[0]` otherwise). -/
def mkInstruction (position : Nat) (bs : List Nat) (dq_brk : Bool) : Instruction :=
  let opcode := bs.headD 0
  let r := decodeOp opcode (decide (1 < bs.length)) (decide (2 < bs.length)) dq_brk
  { position := position, opcode := opcode, op := r.op, ty := r.ty,
    indexing := r.idx, size := r.size, bytes := bs.take r.size }

/-- A bank component: `Subroutine`, `Table` or `Word` from src/disasm.py.
A Word carries its two bytes and the label given at construction. -/
inductive Component where
  | sub (position : Nat) (instructions : List Instruction)
  | table (position : Nat) (tbytes : List Nat)
  | word (position : Nat) (b1 b2 : Nat) (label : String)
deriving DecidableEq, BEq

/-- `__len__` of each component class: a Subroutine sums its instruction
lengths, a Table counts its bytes, a Word is 2. -/
def Component.len : Component → Nat
  | Component.sub _ instrs => (instrs.map (fun i => i.size)).sum
  | Component.table _ bs => bs.length
  | Component.word _ _ _ _ => 2

def Component.position : Component → Nat
  | Component.sub p _ => p
  | Component.table p _ => p
  | Component.word p _ _ _ => p

/-- `__bytes__` of each component class. -/
def Component.bytes : Component → List Nat
  | Component.sub _ instrs => (instrs.map (fun i => i.bytes)).flatten
  | Component.table _ bs => bs
  | Component.word _ b1 b2 _ => [b1, b2]

def Component.isWord : Component → Bool
  | Component.word _ _ _ _ => true
  | _ => false

def Component.isTable : Component → Bool
  | Component.table _ _ => true
  | _ => false

def Component.isSub : Component → Bool
  | Component.sub _ _ => true
  | _ => false

/-- The tunables stored as `Subroutine` class attributes plus the `dq_brk`
flag is passed separately.  `extraEnd` abstracts the `valid_end` substring
scan of `Subroutine.is_complete` (`any(v in str(last_instr))`) as a
predicate on the final instruction; with the default configuration
(`valid_end = []`, no `-v` flag) it is `fun _ => false`. -/
structure Config where
  minSize : Nat := 2
  alwaysValid : Bool := false
  extraEnd : Instruction → Bool := fun _ => false

/-- `Subroutine.is_complete`.  On an empty instruction list the Python
raises IndexError; the disassembler never calls it on an empty Subroutine
(every Subroutine receives an instruction in the same loop step that
creates it), so the `none` case value is never consulted. -/
def is_complete (cfg : Config) (instrs : List Instruction) : Bool :=
  match instrs.getLast? with
  | some last => decide (last.op ∈ ["rts", "rti", "jmp"]) || cfg.extraEnd last
  | none => false

/-- `Subroutine.is_valid`. -/
def is_valid (cfg : Config) (instrs : List Instruction) : Bool :=
  cfg.alwaysValid || (is_complete cfg instrs && decide (cfg.minSize ≤ instrs.length))

/-- Bytes of a Subroutine (`Subroutine.__bytes__`). -/
def subBytes (instrs : List Instruction) : List Nat :=
  (instrs.map (fun i => i.bytes)).flatten

/-- The `while` loop of `Bank._merge_invalid`: while the component before
the last is a Table, extend it with the last component's bytes and drop the
last.  The component list is kept in reverse order (most recent first).
The structural `fuel` makes the function kernel-reducible; each merge
shortens the list, so any `fuel ≥` the list length gives the loop's exact
behaviour. -/
def mergeTablesLoop : Nat → List Component → List Component
  | 0, acc => acc
  | fuel + 1, acc =>
      match acc with
      | c :: Component.table q cs :: rest =>
          mergeTablesLoop fuel (Component.table q (cs ++ c.bytes) :: rest)
      | _ => acc

/-- `Bank._merge_invalid` on the reversed component list: demote a trailing
invalid Subroutine to a Table and merge it into preceding Tables. -/
def merge_invalid (cfg : Config) (acc : List Component) : List Component :=
  match acc with
  | Component.sub p instrs :: rest =>
      if is_valid cfg instrs then acc
      else mergeTablesLoop (rest.length + 1) (Component.table p (subBytes instrs) :: rest)
  | _ => acc

/-- The decodable branch of the `Bank._disassemble` loop body (reversed
component list): open a Subroutine if needed (merging an invalid finished
one), then append the instruction to the trailing Subroutine. -/
def stepDecodable (cfg : Config) (instr : Instruction) (acc : List Component) : List Component :=
  let acc :=
    match acc with
    | [] => [Component.sub instr.position []]
    | Component.sub _ instrs :: _ =>
        if is_complete cfg instrs then
          Component.sub instr.position [] :: merge_invalid cfg acc
        else acc
    | _ => Component.sub instr.position [] :: acc
  match acc with
  | Component.sub p instrs :: rest => Component.sub p (instrs ++ [instr]) :: rest
  | other => other

/-- The not-decodable branch of the `Bank._disassemble` loop body (reversed
component list): close out a trailing Subroutine, ensure a trailing Table,
append the byte to it. -/
def stepData (cfg : Config) (base i byte : Nat) (acc : List Component) : List Component :=
  let acc :=
    match acc with
    | [] => [Component.table (i + base) []]
    | Component.sub _ _ :: _ => merge_invalid cfg acc
    | _ => acc
  let acc :=
    match acc with
    | Component.table _ _ :: _ => acc
    | _ => Component.table (i + base) [] :: acc
  match acc with
  | Component.table p bs :: rest => Component.table p (bs ++ [byte]) :: rest
  | other => other

/-- A decoded mnemonic implies a positive length (proof-valued helper,
needed for the termination of the disassembly loop below). -/
def decode_size_pos : ∀ (opcode : Nat) (h1 h2 dq : Bool),
    (decodeOp opcode h1 h2 dq).op ≠ "" → 1 ≤ (decodeOp opcode h1 h2 dq).size := by
  intro opcode h1 h2 dq
  unfold decodeOp
  split_ifs <;> intro h <;> first | omega | simp_all

/-- The main loop of `Bank._disassemble` (src/disasm.py lines 195-217) on a
reversed component list.  The structural `fuel` makes the function
kernel-reducible; the cursor `i` advances by at least one byte per
iteration while `i < len(bank_bytes)`, so any `fuel ≥ len(bank_bytes) - i`
gives the loop's exact behaviour (the caller passes the bank length). -/
def disassembleLoop (cfg : Config) (dq : Bool) (base : Nat) (bankBytes : List Nat) :
    Nat → Nat → List Component → List Component
  | 0, _, acc => acc
  | fuel + 1, i, acc =>
      if i < bankBytes.length then
        if (mkInstruction (i + base) ((bankBytes.drop i).take 3) dq).op ≠ "" then
          disassembleLoop cfg dq base bankBytes fuel
            (i + (mkInstruction (i + base) ((bankBytes.drop i).take 3) dq).size)
            (stepDecodable cfg (mkInstruction (i + base) ((bankBytes.drop i).take 3) dq) acc)
        else
          disassembleLoop cfg dq base bankBytes fuel (i + 1)
            (stepData cfg base i (bankBytes.getD i 0) acc)
      else acc

/-- `Bank._disassemble` (loop plus interrupt-vector handling, src/disasm.py
lines 193-236), producing the reversed component list.  `bankLen` is
`len(self)` (the full byte count of the bank). -/
def disassembleRev (cfg : Config) (dq : Bool) (base : Nat)
    (bankBytes interrupts : List Nat) (number fixed bankLen : Nat) : List Component :=
  let acc := disassembleLoop cfg dq base bankBytes bankBytes.length 0 []
  if interrupts.length ≠ 0 then
    let pfx := if fixed == 0 then "b" ++ toString number ++ "_" else ""
    let nmi := Component.word (bankLen - 6) (interrupts.getD 0 0) (interrupts.getD 1 0)
      (pfx ++ "NMI")
    let rst := Component.word (bankLen - 4) (interrupts.getD 2 0) (interrupts.getD 3 0)
      (pfx ++ "RESET")
    let irq := Component.word (bankLen - 2) (interrupts.getD 4 0) (interrupts.getD 5 0)
      (pfx ++ "IRQ")
    if base == 0x10000 - bankLen then
      irq :: rst :: nmi :: acc
    else
      match acc with
      | Component.table p bs :: rest =>
          Component.table p (bs ++ nmi.bytes ++ rst.bytes ++ irq.bytes) :: rest
      | _ =>
          Component.table (base + bankBytes.length)
            (nmi.bytes ++ rst.bytes ++ irq.bytes) :: acc
  else acc

/-- `Bank._disassemble`, components in source order. -/
def disassemble (cfg : Config) (dq : Bool) (base : Nat)
    (bankBytes interrupts : List Nat) (number fixed bankLen : Nat) : List Component :=
  (disassembleRev cfg dq base bankBytes interrupts number fixed bankLen).reverse

/-- Jump points collected by `Bank.find_base`: for every absolute-mode
`jmp`/`jsr` instruction in a Subroutine, `b1, b2, _ = bytes(i)` unpacks the
OPCODE byte into `b1` and the low operand byte into `b2`, and the point is
`b2 << 8 | b1`. -/
def jumpPoints (comps : List Component) : List Nat :=
  comps.foldl
    (fun acc c =>
      match c with
      | Component.sub _ instrs =>
          acc ++ (instrs.filter
              (fun i => (i.op == "jmp" || i.op == "jsr") && i.ty == some OpTy.absolute)).map
            (fun i => (i.bytes.getD 1 0) <<< 8 ||| i.bytes.getD 0 0)
      | _ => acc)
    []

/-- The bin-filling loop of `Bank.find_base`. -/
def fillBins (bases : List Nat) (bins : List Nat) (jpoint : Nat) : List Nat :=
  (List.range bins.length).foldl
    (fun bins k =>
      if jpoint > bases.getD k 0 && decide (jpoint < bases.getD (k + 1) 0) then
        bins.set k (bins.getD k 0 + 1)
      else bins)
    bins

/-- The selection loop of `Bank.find_base`: `base = 0; for i, b in
enumerate(bins): if bases[base] < bases[i]: base = i`.  Note it compares
entries of `bases`, not the counts in `bins`. -/
def selectBase (bases bins : List Nat) : Nat :=
  (List.range bins.length).foldl
    (fun base i => if bases.getD base 0 < bases.getD i 0 then i else base) 0

/-- `Bank.find_base` (src/disasm.py lines 284-305).  Out-of-range list
indexing (a Python IndexError, reachable only for parameter combinations on
which `Bank.__init__` crashes) is modelled by `getD` defaults. -/
def find_base (comps : List Component) (bankLen fixed : Nat) : Nat :=
  let bases := pyRange 0x8000 (0x10001 - bankLen * fixed) bankLen
  let bases :=
    match comps.getLast? with
    | some (Component.word _ _ _ _) => bases
    | _ => bases.dropLast
  let bins := (jumpPoints comps).foldl (fillBins bases) (List.replicate (bases.length - 1) 0)
  bases.getD (selectBase bases bins) 0

/-- Modelled from the spec (section 4.4), for comparison with `find_base`:
the same candidate list, bins counting the `jmp`/`jsr` absolute targets
(16-bit address `high << 8 | low` from the operand bytes) strictly between
adjacent candidates, and the candidate with the highest count selected
(first index on ties). -/
def find_base_spec (comps : List Component) (bankLen fixed : Nat) : Nat :=
  let bases := pyRange 0x8000 (0x10001 - bankLen * fixed) bankLen
  let bases :=
    match comps.getLast? with
    | some (Component.word _ _ _ _) => bases
    | _ => bases.dropLast
  let targets := comps.foldl
    (fun acc c =>
      match c with
      | Component.sub _ instrs =>
          acc ++ (instrs.filter
              (fun i => (i.op == "jmp" || i.op == "jsr") && i.ty == some OpTy.absolute)).map
            (fun i => (i.bytes.getD 2 0) <<< 8 ||| i.bytes.getD 1 0)
      | _ => acc)
    []
  let bins := targets.foldl (fillBins bases) (List.replicate (bases.length - 1) 0)
  let best := (List.range bins.length).foldl
    (fun best i => if bins.getD best 0 < bins.getD i 0 then i else best) 0
  bases.getD best 0

/-- The result of `Bank.__init__`: the final base and component list. -/
structure BankResult where
  base : Nat
  components : List Component
deriving DecidableEq

/-- `Bank.__init__` (src/disasm.py lines 162-191): disassemble at the given
base (0x8000 when the base is unknown, i.e. 0), and when the base was
unknown rerun the disassembly once at the base inferred by `find_base` if
it differs.  The final `str(self)` label-stamping render is not modelled:
it only mutates `label` fields of Instructions and Tables, which no claim
depends on. -/
def bankOf (cfg : Config) (dq : Bool) (number baseArg : Nat) (full : List Nat)
    (fixed : Nat) : BankResult :=
  let base := if baseArg == 0 then 0x8000 else baseArg
  let code := full.take (full.length - 6)
  let interrupts := full.drop (full.length - 6)
  let comps := disassemble cfg dq base code interrupts number fixed full.length
  if baseArg == 0 then
    let newBase := find_base comps full.length fixed
    if newBase ≠ base then
      ⟨newBase, disassemble cfg dq newBase code interrupts number fixed full.length⟩
    else ⟨base, comps⟩
  else ⟨base, comps⟩

/-- `Bank.find_component`: linear scan for the component whose byte range
contains `addr`. -/
def find_component (comps : List Component) (addr : Nat) : Option Component :=
  comps.find? (fun c => decide (addr ≥ c.position) && decide (addr < c.position + c.len))

/-- The failure message of `Word.get_label`: its body reads the unbound
name `label` (instead of `self.label`), so every call raises NameError. -/
def wordGetLabelError : String := "NameError: name 'label' is not defined"

/-- `get_label(addr)` of each component class.  `Word.get_label`
unconditionally evaluates the unbound variable `label`, modelled as an
error.  `Subroutine.get_label` falls off the end and returns Python `None`
when no instruction contains `addr` (unreachable via `find_component`),
which the caller formats as the string `"None"`. -/
def get_label (c : Component) (number addr : Nat) : Except String String :=
  match c with
  | Component.sub _ instrs =>
      match instrs.find?
          (fun i => decide (addr ≥ i.position) && decide (addr < i.position + i.size)) with
      | some i =>
          Except.ok ("b" ++ toString number ++ "_" ++ hex4 i.position ++
            (if addr ≠ i.position then "+" ++ toString (addr - i.position) else ""))
      | none => Except.ok "None"
  | Component.table p _ =>
      Except.ok ("tab_b" ++ toString number ++ "_" ++ hex4 p ++
        (if addr ≠ p then "+" ++ toString (addr - p) else ""))
  | Component.word _ _ _ _ => Except.error wordGetLabelError

/-- `Bank.find_label` (src/disasm.py lines 269-282): the label of the
component at `addr`, or the raw hex address when none exists. -/
def find_label (comps : List Component) (number addr : Nat) : Except String String :=
  match find_component comps addr with
  | some c => get_label c number addr
  | none => Except.ok ("$" ++ hex4 addr)

/-- The text built by the `OpType.ABSOLUTE` block of `Instruction.__str__`
once the label string is in hand: MMIO register name or the label, then the
indexing suffix, then the zero-high-byte `hex`-directive rewrite. -/
def absoluteTextCore (instr : Instruction) (label : String) : String :=
  let b1 := instr.bytes.getD 1 0
  let b2 := instr.bytes.getD 2 0
  let addr := (b2 <<< 8) ||| b1
  let txt :=
    match mmioName addr with
    | some nm => instr.op ++ " " ++ nm
    | none => instr.op ++ " " ++ label
  let txt :=
    if instr.indexing ≠ Idx.none then txt ++ "," ++ idxStr instr.indexing else txt
  let txt :=
    if b2 == 0 && decide (instr.op ∉ ["jmp", "jsr"]) then
      "hex " ++ hex2 instr.opcode ++ " " ++ hex2 b1 ++ " " ++ hex2 b2 ++ " ; " ++ txt
    else txt
  txt

/-- The `OpType.ABSOLUTE` block of `Instruction.__str__` (src/disasm.py
lines 608-624): the text written for the operand field (everything after
the 12-column label field).  The label is computed first (store mnemonics
take the raw hex address, others ask the bank and may fail), then
`absoluteTextCore` renders the text. -/
def absoluteText (comps : List Component) (number : Nat) (instr : Instruction) :
    Except String String :=
  let b1 := instr.bytes.getD 1 0
  let b2 := instr.bytes.getD 2 0
  let addr := (b2 <<< 8) ||| b1
  match
    (if instr.op ∈ ["sta", "stx", "sty", "dec", "inc"] then
      Except.ok ("$" ++ hex4 addr)
    else find_label comps number addr) with
  | Except.error e => Except.error e
  | Except.ok label => Except.ok (absoluteTextCore instr label)

/-- Total bytes of a component list, in order. -/
def compsBytes (comps : List Component) : List Nat :=
  (comps.map Component.bytes).flatten

/-- Sum of component lengths. -/
def sumLen (comps : List Component) : Nat :=
  (comps.map Component.len).sum

/-- Walk a component list checking that each component starts exactly where
the previous one ended; returns the final end address on success. -/
def tilesEnd (p : Nat) : List Component → Option Nat
  | [] => some p
  | c :: rest => if c.position = p then tilesEnd (p + c.len) rest else none

/-- The adjacency condition of the claim alone:
`component[i].position + len(component[i]) = component[i+1].position`. -/
def adjacentTiled : List Component → Bool
  | c :: c2 :: rest =>
      (c.position + c.len == c2.position) && adjacentTiled (c2 :: rest)
  | _ => true

/-- Tiling stated on the reversed accumulator used by the disassembly loop:
`chainOk base acc e` says the components of `acc.reverse` are contiguous
starting at `base` and end at address `e`. -/
def chainOk (base : Nat) : List Component → Nat → Prop
  | [], e => e = base
  | c :: rest, e => chainOk base rest c.position ∧ e = c.position + c.len

/-- Well-formedness the loop maintains: stored instruction bytes have
exactly the decoded length. -/
def compWf : Component → Prop
  | Component.sub _ instrs => ∀ ins ∈ instrs, ins.bytes.length = ins.size
  | _ => True

/-- The loop invariant of `Bank._disassemble`: the reversed accumulator
tiles `[base, base+i)`, reproduces the first `i` bank bytes, contains no
Word, and is well-formed. -/
def Inv (base : Nat) (bb : List Nat) (i : Nat) (acc : List Component) : Prop :=
  chainOk base acc (base + i)
  ∧ compsBytes acc.reverse = bb.take i
  ∧ (∀ c ∈ acc, c.isWord = false)
  ∧ (∀ c ∈ acc, compWf c)

/-- The three interrupt-vector Words appended by `Bank._disassemble` when
the bank ends at 0x10000, exactly as constructed there (note the positions
`bankLen - 6/4/2` do not include the base). -/
def vectorWords (number fixed bankLen : Nat) (iv : List Nat) : List Component :=
  [Component.word (bankLen - 6) (iv.getD 0 0) (iv.getD 1 0)
      ((if fixed == 0 then "b" ++ toString number ++ "_" else "") ++ "NMI"),
   Component.word (bankLen - 4) (iv.getD 2 0) (iv.getD 3 0)
      ((if fixed == 0 then "b" ++ toString number ++ "_" else "") ++ "RESET"),
   Component.word (bankLen - 2) (iv.getD 4 0) (iv.getD 5 0)
      ((if fixed == 0 then "b" ++ toString number ++ "_" else "") ++ "IRQ")]

/-- The default configuration: `min_sub_size = 2`, no `--no-sub-check`, no
extra terminators. -/
def cfgDefault : Config := {}

/-- The bank exhibiting the `find_base` divergence: `jsr $8008; rts`
followed by 246 data bytes 0x02 and six zero vector bytes - 256 bytes in
total, disassembled with unknown base (0). -/
def c1bytes : List Nat :=
  [0x20, 0x08, 0x80, 0x60] ++ List.replicate 246 2 ++ List.replicate 6 0

/-- A 16-byte last bank (base 0xfff0): ten `nop`s and six vector bytes. -/
def c3bytes : List Nat :=
  List.replicate 10 0xea ++ [0x00, 0x80, 0x10, 0x80, 0x20, 0x80]

/-- A 10-byte bank whose code region ends in a `brk` byte: three `nop`s,
one 0x00, and six zero vector bytes. -/
def c10bytes : List Nat := [0xea, 0xea, 0xea, 0x00, 0, 0, 0, 0, 0, 0]

/-- `lda #$01`, used by witnesses. -/
def wInstr1 : Instruction := mkInstruction 0x8000 [0xa9, 0x01] false

/-- `rts`, used by witnesses. -/
def wInstr2 : Instruction := mkInstruction 0x8002 [0x60] false

end Disasm

namespace Inlretro

/-- `is_power_of_two` from src/inlretro.py, which computes
`bool(number) and math.log(number, 2).is_integer()`; for every argument the
driver passes (bank indices below 256) the floating-point computation
agrees with this exact power-of-two test. -/
def is_power_of_two (number : Nat) : Bool :=
  number != 0 && (number &&& (number - 1) == 0)

/-- The PRG loop of `INLRetro.dump_full` (src/inlretro.py lines 379-397),
abstracted over the device (`bank i` = bytes returned when dumping PRG bank
`i`) and the digest function `h` (MD5 hexdigest in the source).  State:
current index, the set of already-seen bank hashes, the output written so
far.  Returns the final `prg_size` and the output. -/
def dumpPrgGo (h : List Nat → String) (bank : Nat → List Nat) (bankSize : Nat)
    (prgSize : Option Nat) (count : Nat) (i : Nat) (hashes : List String)
    (out : List Nat) : Option Nat × List Nat :=
  if i < count then
    if prgSize.isNone && is_power_of_two i && hashes.contains (h (bank i)) then
      (some (i * bankSize), out)
    else
      dumpPrgGo h bank bankSize prgSize count (i + 1) (h (bank i) :: hashes)
        (out ++ bank i)
  else (prgSize, out)
termination_by count - i

/-- The PRG section of `INLRetro.dump_full`: 256 banks when no PRG size was
supplied, else `prg_size // prg_bank_size` banks; stop early (without
writing the duplicate) when a power-of-two index repeats a seen hash. -/
def dump_full_prg (h : List Nat → String) (bank : Nat → List Nat) (bankSize : Nat)
    (prgSize : Option Nat) : Option Nat × List Nat :=
  let count :=
    match prgSize with
    | none => 256
    | some s => s / bankSize
  dumpPrgGo h bank bankSize prgSize count 0 [] []

/-- How `INLRetro.dump_and_verify` can end. -/
inductive VerifyOutcome where
  | accepted | unknownHash | hashMismatch
deriving DecidableEq

/-- Result of `dump_and_verify`: the outcome and how many full dumps were
performed. -/
structure VerifyResult where
  outcome : VerifyOutcome
  dumps : Nat
deriving DecidableEq

/-- `INLRetro.dump_and_verify` (src/inlretro.py lines 419-437), abstracted
over the digests of successive full dumps (`digestOf n` = MD5 hexdigest of
the bytes produced by the (n+1)-th call to `dump_full`) and the known-MD5
set: accept on a known first digest; otherwise dump again and raise
UnknownHashError when the second digest matches the first, HashMismatchError
when it does not. -/
def dump_and_verify (known : List String) (digestOf : Nat → String) : VerifyResult :=
  if digestOf 0 ∈ known then ⟨VerifyOutcome.accepted, 1⟩
  else if digestOf 1 = digestOf 0 then ⟨VerifyOutcome.unknownHash, 2⟩
  else ⟨VerifyOutcome.hashMismatch, 2⟩

end Inlretro

open Disasm Inlretro

/-! ## Supporting lemmas -/

/-- Powers of two pass the driver's power-of-two test. -/
theorem is_power_of_two_pow (k : Nat) : is_power_of_two (2 ^ k) = true := by
  unfold is_power_of_two
  have hand : (2 : Nat) ^ k &&& (2 ^ k - 1) = 0 := by
    apply Nat.eq_of_testBit_eq
    intro i
    rw [Nat.testBit_land]
    simp [Nat.testBit_two_pow, Nat.testBit_two_pow_sub_one]
    omega
  simp [hand]

/-- Behaviour of the PRG dump loop on a device whose banks alias modulo a
power of two `N ≤ 128` with the first `N` bank digests pairwise distinct:
starting from any index `i ≤ N` with exactly the digests of banks `0..i-1`
seen, the loop stops at index `N` with `prg_size = N * bankSize`, having
written banks `i..N-1`. -/
theorem dumpPrgGo_aliasing (h : List Nat → String) (bank : Nat → List Nat)
    (bankSize N k : Nat) (hN : N = 2 ^ k) (hle : N ≤ 128)
    (halias : ∀ i, bank i = bank (i % N))
    (hinj : ∀ i j, i < N → j < N → i ≠ j → h (bank i) ≠ h (bank j)) :
    ∀ n i hashes out, i + n = N →
      (∀ s, hashes.contains s = true ↔ ∃ j, j < i ∧ s = h (bank j)) →
      dumpPrgGo h bank bankSize none 256 i hashes out
        = (some (N * bankSize), out ++ ((List.range' i n).map bank).flatten) := by
  have hNpos : 0 < N := by
    rw [hN]; exact Nat.pos_pow_of_pos k (by omega)
  intro n
  induction n with
  | zero =>
      intro i hashes out hin hh
      have hiN : i = N := by omega
      rw [dumpPrgGo]
      rw [if_pos (show i < 256 by omega)]
      have hdup : hashes.contains (h (bank i)) = true :=
        (hh (h (bank i))).mpr ⟨0, by omega, by rw [hiN, halias N, Nat.mod_self]⟩
      have hpot : is_power_of_two i = true := by
        rw [hiN, hN]; exact is_power_of_two_pow k
      have hguard : (Option.isNone (none : Option Nat) && is_power_of_two i
          && hashes.contains (h (bank i))) = true := by
        rw [hpot, hdup]
        rfl
      rw [if_pos hguard]
      simp [hiN]
  | succ n ih =>
      intro i hashes out hin hh
      have hiN : i < N := by omega
      rw [dumpPrgGo]
      rw [if_pos (show i < 256 by omega)]
      have hnodup : hashes.contains (h (bank i)) = false := by
        by_contra hcon
        have hmem : hashes.contains (h (bank i)) = true := by
          cases hb : hashes.contains (h (bank i)) with
          | false => exact absurd hb hcon
          | true => rfl
        obtain ⟨j, hj, hjh⟩ := (hh (h (bank i))).mp hmem
        exact hinj i j hiN (by omega) (by omega) hjh
      have hguard : (Option.isNone (none : Option Nat) && is_power_of_two i
          && hashes.contains (h (bank i))) = false := by
        rw [hnodup]; simp
      rw [hguard, if_neg Bool.false_ne_true]
      have hstep := ih (i + 1) (h (bank i) :: hashes) (out ++ bank i) (by omega) ?_
      · rw [hstep, List.range'_succ]
        simp
      · intro s
        simp only [List.contains_cons, Bool.or_eq_true, beq_iff_eq, hh]
        constructor
        · rintro (hs | ⟨j, hj, hjs⟩)
          · exact ⟨i, by omega, hs⟩
          · exact ⟨j, by omega, hjs⟩
        · rintro ⟨j, hj, hjs⟩
          by_cases hji : j = i
          · subst hji; exact Or.inl hjs
          · exact Or.inr ⟨j, by omega, hjs⟩

/-! ## C6 -/

/-- C6: after a full dump, a known first digest is accepted with a single
dump; otherwise a second dump happens and the driver raises the
unknown-hash error exactly when the second digest equals the first, the
hash-mismatch error exactly when they differ, and never accepts. -/
theorem C6_dump_and_verify (known : List String) (digestOf : Nat → String) :
    ((dump_and_verify known digestOf).outcome = VerifyOutcome.accepted ↔ digestOf 0 ∈ known)
    ∧ (dump_and_verify known digestOf).dumps = (if digestOf 0 ∈ known then 1 else 2)
    ∧ ((dump_and_verify known digestOf).outcome = VerifyOutcome.unknownHash ↔
        (digestOf 0 ∉ known ∧ digestOf 1 = digestOf 0))
    ∧ ((dump_and_verify known digestOf).outcome = VerifyOutcome.hashMismatch ↔
        (digestOf 0 ∉ known ∧ digestOf 1 ≠ digestOf 0)) := by
  unfold dump_and_verify
  by_cases h1 : digestOf 0 ∈ known
  · simp [h1]
  · by_cases h2 : digestOf 1 = digestOf 0 <;> simp [h1, h2]

/-! ## C7 -/

/-- C7: with no PRG size supplied, a device whose banks alias modulo a
power of two `N ≤ 128` (with the `N` base banks having pairwise distinct
digests) stops the PRG dump at the first duplicated power-of-two index,
reports `prg_size = N * bankSize`, and writes exactly banks `0..N-1`
(the duplicated bank is not written). -/
theorem C7_bank_autodetect (h : List Nat → String) (bank : Nat → List Nat)
    (bankSize N k : Nat) (hN : N = 2 ^ k) (hle : N ≤ 128)
    (halias : ∀ i, bank i = bank (i % N))
    (hinj : ∀ i j, i < N → j < N → i ≠ j → h (bank i) ≠ h (bank j)) :
    dump_full_prg h bank bankSize none
      = (some (N * bankSize), ((List.range N).map bank).flatten) := by
  unfold dump_full_prg
  have hrun := dumpPrgGo_aliasing h bank bankSize N k hN hle halias hinj N 0 [] []
    (by omega) (by simp)
  rw [hrun, List.range_eq_range']
  simp

/-- Witness for C7: a two-bank device aliasing modulo 2, with the
two-digit-hex digest of the first byte as the abstract digest. -/
theorem C7_witness :
    dump_full_prg (fun l => hex2 (l.headD 0)) (fun i => [i % 2]) 16 none
      = (some 32, [0, 1]) := by
  have hres := C7_bank_autodetect (fun l => hex2 (l.headD 0)) (fun i => [i % 2]) 16 2 1
    rfl (by omega) (fun i => by simp only [List.cons.injEq, and_true]; omega) ?_
  · simpa using hres
  · intro i j hi hj hij
    interval_cases i <;> interval_cases j <;> first | omega | decide

/-! ## C8 -/

/-- C8: `Subroutine.is_valid` is true exactly when the no-validity-check
mode is on, or the subroutine is complete (final mnemonic `rts`/`rti`/`jmp`
or a configured terminator matches the final instruction) and it has at
least `min_sub_size` instructions. -/
theorem C8_is_valid (cfg : Config) (instrs : List Instruction) (last : Instruction)
    (h : instrs.getLast? = some last) :
    is_valid cfg instrs = true ↔
      (cfg.alwaysValid = true ∨
        ((last.op = "rts" ∨ last.op = "rti" ∨ last.op = "jmp" ∨ cfg.extraEnd last = true)
          ∧ cfg.minSize ≤ instrs.length)) := by
  unfold is_valid is_complete
  rw [h]
  simp only [Bool.or_eq_true, Bool.and_eq_true, decide_eq_true_eq, List.mem_cons,
    List.mem_singleton, List.not_mem_nil, or_false]
  tauto

/-- Witness for C8 at a concrete two-instruction subroutine ending in
`rts` under the default configuration. -/
theorem C8_witness :
    is_valid cfgDefault [wInstr1, wInstr2] = true ↔
      (cfgDefault.alwaysValid = true ∨
        ((wInstr2.op = "rts" ∨ wInstr2.op = "rti" ∨ wInstr2.op = "jmp" ∨
            cfgDefault.extraEnd wInstr2 = true)
          ∧ cfgDefault.minSize ≤ [wInstr1, wInstr2].length)) :=
  C8_is_valid cfgDefault [wInstr1, wInstr2] wInstr2 rfl

/-! ## C9 -/

/-- C9: `Word.get_label` always fails with a NameError (it reads the
unbound name `label`), so label resolution that reaches a Word component -
`find_label` on any address lying inside a Word's two-byte range - raises
instead of returning a label. -/
theorem C9_word_get_label_raises :
    (∀ (p b1 b2 : Nat) (lbl : String) (number addr : Nat),
        get_label (Component.word p b1 b2 lbl) number addr
          = Except.error wordGetLabelError)
    ∧ (∀ (comps : List Component) (number addr p b1 b2 : Nat) (lbl : String),
        find_component comps addr = some (Component.word p b1 b2 lbl) →
        find_label comps number addr = Except.error wordGetLabelError) := by
  constructor
  · intro p b1 b2 lbl number addr
    rfl
  · intro comps number addr p b1 b2 lbl h
    unfold find_label
    rw [h]
    rfl

/-- Witness for C9 at a concrete component list holding an NMI vector
Word. -/
theorem C9_witness :
    find_label [Component.word 0xfffa 0x00 0x80 "NMI"] 0 0xfffa
      = Except.error wordGetLabelError :=
  C9_word_get_label_raises.2 [Component.word 0xfffa 0x00 0x80 "NMI"] 0 0xfffa
    0xfffa 0x00 0x80 "NMI" rfl

/-! ## C10 -/

set_option maxHeartbeats 2000000 in
set_option maxRecDepth 8000 in
/-- C10: decoding with fewer bytes than the decode chain requires yields a
falsy instruction (empty mnemonic, size 0) rather than an error: any opcode
whose three-byte decode is multi-byte is not decodable from one byte, any
opcode whose three-byte decode is three bytes long - and also `brk`
(opcode 0), whose guard demands a third byte even though its emitted length
is only 2 without the dq-brk flag - is not decodable from two bytes; and
consequently a `brk` within the last two bytes of a bank's code region is
classified as data (the concrete 10-byte bank `c10bytes`, whose code region
ends `ea 00`, classifies everything into a single Table). -/
theorem C10_truncated_decode :
    (∀ opcode, opcode < 256 → ∀ (dq : Bool) (b1 b2 : Nat),
      (2 ≤ (mkInstruction 0 [opcode, b1, b2] dq).size →
        (mkInstruction 0 [opcode] dq).op = "" ∧ (mkInstruction 0 [opcode] dq).size = 0)
      ∧ ((mkInstruction 0 [opcode, b1, b2] dq).size = 3 ∨ opcode = 0 →
        (mkInstruction 0 [opcode, b1] dq).op = ""
          ∧ (mkInstruction 0 [opcode, b1] dq).size = 0)
      ∧ (opcode = 0 →
        (mkInstruction 0 [opcode, b1, b2] dq).op = "brk"
          ∧ (mkInstruction 0 [opcode, b1, b2] dq).size = if dq then 3 else 2))
    ∧ (bankOf cfgDefault false 0 0x8000 c10bytes 0).components
        = [Component.table 0x8000 c10bytes] := by
  constructor
  · have key : ∀ opcode, opcode < 256 → ∀ dq : Bool,
        (2 ≤ (decodeOp opcode true true dq).size →
          (decodeOp opcode false false dq).op = ""
            ∧ (decodeOp opcode false false dq).size = 0)
        ∧ ((decodeOp opcode true true dq).size = 3 ∨ opcode = 0 →
          (decodeOp opcode true false dq).op = ""
            ∧ (decodeOp opcode true false dq).size = 0)
        ∧ (opcode = 0 →
          (decodeOp opcode true true dq).op = "brk"
            ∧ (decodeOp opcode true true dq).size = if dq then 3 else 2) := by decide
    intro opcode h dq b1 b2
    exact key opcode h dq
  · decide

/-- Witness for C10 at opcode 0 (`brk`): not decodable from two bytes,
decodable with emitted length 2 from three. -/
theorem C10_witness :
    ((mkInstruction 0 [0, 7] false).op = "" ∧ (mkInstruction 0 [0, 7] false).size = 0)
    ∧ ((mkInstruction 0 [0, 7, 9] false).op = "brk"
        ∧ (mkInstruction 0 [0, 7, 9] false).size = 2) := by
  refine ⟨(C10_truncated_decode.1 0 (by omega) false 7 9).2.1 (Or.inr rfl), ?_⟩
  exact (C10_truncated_decode.1 0 (by omega) false 7 9).2.2 rfl

/-! ## C2 -/

/-- Every address in the MMIO dictionary is at least 0x2000. -/
theorem mmioName_some_ge (addr : Nat) (nm : String) (h : mmioName addr = some nm) :
    0x2000 ≤ addr := by
  unfold mmioName at h
  cases hf : mmio.find? (fun p => p.1 == addr) with
  | none => rw [hf] at h; simp at h
  | some p =>
      have hmem := List.mem_of_find?_eq_some hf
      have hp := List.find?_some hf
      have heq : p.1 = addr := by simpa using hp
      have hall : ∀ q ∈ mmio, 0x2000 ≤ q.1 := by decide
      exact heq ▸ hall p hmem

/-- For a store mnemonic the label slot of the absolute formatter is the
raw hex address; the bank's label resolver is never consulted. -/
theorem absoluteText_store (comps : List Component) (number : Nat) (instr : Instruction)
    (hst : instr.op ∈ ["sta", "stx", "sty", "dec", "inc"]) :
    absoluteText comps number instr = Except.ok (absoluteTextCore instr
      ("$" ++ hex4 ((instr.bytes.getD 2 0) <<< 8 ||| instr.bytes.getD 1 0))) := by
  simp only [absoluteText]
  rw [if_pos hst]

/-- C2 counterexample: the three bytes `8d 00 20` (`sta $2000`) render with
the MMIO substitution as `sta PPUCTRL`, not as the raw `sta $2000` the
claim requires; `ad 00 20` renders `lda PPUCTRL` as claimed. -/
theorem C2_counterexample :
    absoluteText [] 0 (mkInstruction 0x8000 [0x8d, 0x00, 0x20] false)
        = Except.ok "sta PPUCTRL"
    ∧ absoluteText [] 0 (mkInstruction 0x8000 [0x8d, 0x00, 0x20] false)
        ≠ Except.ok "sta $2000"
    ∧ absoluteText [] 0 (mkInstruction 0x8000 [0xad, 0x00, 0x20] false)
        = Except.ok "lda PPUCTRL" := by
  have h1 : absoluteText [] 0 (mkInstruction 0x8000 [0x8d, 0x00, 0x20] false)
      = Except.ok "sta PPUCTRL" := rfl
  refine ⟨h1, ?_, rfl⟩
  rw [h1]
  intro hcon
  exact absurd (Except.ok.inj hcon) (by decide)

/-- C2 amended: an absolute-mode store instruction never consults the
bank's label resolver (its output is independent of the component list and
never raises, so no code label can appear), but the MMIO substitution does
apply to it: an MMIO operand address renders as the register mnemonic, any
other address as the raw `$XXXX` (inside the `hex`-directive rewrite when
the high operand byte is zero). -/
theorem C2_amended (instr : Instruction)
    (hst : instr.op ∈ ["sta", "stx", "sty", "dec", "inc"])
    (hb1 : instr.bytes.getD 1 0 < 256) (comps comps2 : List Component)
    (number number2 : Nat) :
    (absoluteText comps number instr = absoluteText comps2 number2 instr)
    ∧ (∃ s, absoluteText comps number instr = Except.ok s)
    ∧ (∀ nm, mmioName ((instr.bytes.getD 2 0) <<< 8 ||| instr.bytes.getD 1 0) = some nm →
        absoluteText comps number instr = Except.ok (instr.op ++ " " ++ nm ++
          (if instr.indexing = Idx.none then "" else "," ++ idxStr instr.indexing)))
    ∧ (mmioName ((instr.bytes.getD 2 0) <<< 8 ||| instr.bytes.getD 1 0) = none →
        instr.bytes.getD 2 0 ≠ 0 →
        absoluteText comps number instr = Except.ok (instr.op ++ " "
          ++ ("$" ++ hex4 ((instr.bytes.getD 2 0) <<< 8 ||| instr.bytes.getD 1 0))
          ++ (if instr.indexing = Idx.none then "" else "," ++ idxStr instr.indexing))) := by
  have h1 := absoluteText_store comps number instr hst
  have h2 := absoluteText_store comps2 number2 instr hst
  refine ⟨h1.trans h2.symm, ⟨_, h1⟩, ?_, ?_⟩
  · intro nm hm
    have hb2 : instr.bytes.getD 2 0 ≠ 0 := by
      intro h0
      have hge := mmioName_some_ge _ _ hm
      rw [h0] at hge
      simp only [Nat.zero_shiftLeft, Nat.zero_or] at hge
      omega
    have hb2g : instr.bytes[2]?.getD 0 ≠ 0 := by simpa using hb2
    rw [h1]
    congr 1
    simp only [absoluteTextCore, hm]
    by_cases hidx : instr.indexing = Idx.none <;>
      simp [hidx, hb2g, String.append_assoc]
  · intro hm hb2
    have hb2g : instr.bytes[2]?.getD 0 ≠ 0 := by simpa using hb2
    rw [h1]
    congr 1
    simp only [absoluteTextCore, hm]
    by_cases hidx : instr.indexing = Idx.none <;>
      simp [hidx, hb2g, String.append_assoc]

/-- Witness for C2 amended: `8d 00 20` rendered against two different
component lists gives the same text. -/
theorem C2_witness :
    absoluteText [] 0 (mkInstruction 0x8000 [0x8d, 0x00, 0x20] false)
      = absoluteText [Component.word 0 0 0 "w"] 1 (mkInstruction 0x8000 [0x8d, 0x00, 0x20] false) :=
  (C2_amended (mkInstruction 0x8000 [0x8d, 0x00, 0x20] false) (by decide) (by decide)
    [] [Component.word 0 0 0 "w"] 0 1).1

/-! ## C1 -/

set_option maxRecDepth 20000 in
/-- C1 (code bug): on the 256-byte bank `c1bytes` constructed with unknown
base, whose only absolute `jsr` targets $8008 (strictly inside the first
candidate window (0x8000, 0x8100)), `Bank.find_base` nevertheless picks
0xfe00 - the next-to-last candidate - because its selection loop compares
candidate addresses (`bases[base] < bases[i]`) instead of the counts in
`bins`, which are never read (the jump target is also unpacked from the
wrong bytes).  The spec-mandated highest-count candidate, computed by
`find_base_spec` on the same components, is 0x8000, and the bank is then
re-disassembled at the wrong base 0xfe00. -/
theorem C1_find_base_ignores_counts :
    (bankOf cfgDefault false 0 0 c1bytes 0).base = 0xfe00
    ∧ find_base
        (disassemble cfgDefault false 0x8000 (c1bytes.take (c1bytes.length - 6))
          (c1bytes.drop (c1bytes.length - 6)) 0 0 c1bytes.length)
        c1bytes.length 0 = 0xfe00
    ∧ find_base_spec
        (disassemble cfgDefault false 0x8000 (c1bytes.take (c1bytes.length - 6))
          (c1bytes.drop (c1bytes.length - 6)) 0 0 c1bytes.length)
        c1bytes.length 0 = 0x8000 := by
  refine ⟨by decide, by decide, by decide⟩

/-! ## Classifier invariants (supporting lemmas for C3, C4, C5) -/

theorem compsBytes_append (l1 l2 : List Component) :
    compsBytes (l1 ++ l2) = compsBytes l1 ++ compsBytes l2 := by
  simp [compsBytes]

theorem compsBytes_reverse_cons (c : Component) (rest : List Component) :
    compsBytes ((c :: rest).reverse) = compsBytes rest.reverse ++ c.bytes := by
  simp [compsBytes]

/-- A well-formed component's bytes are as long as its reported length. -/
theorem compWf_bytes_len (c : Component) (h : compWf c) : c.bytes.length = c.len := by
  cases c with
  | sub p instrs =>
      simp only [Component.bytes, Component.len, List.length_flatten, List.map_map]
      exact congrArg List.sum (List.map_congr_left (fun ins hi => h ins hi))
  | table p bs => rfl
  | word p b1 b2 lbl => rfl

theorem subLen_append (p : Nat) (instrs : List Instruction) (instr : Instruction) :
    (Component.sub p (instrs ++ [instr])).len = (Component.sub p instrs).len + instr.size := by
  simp [Component.len]

theorem subBytes_append (p : Nat) (instrs : List Instruction) (instr : Instruction) :
    (Component.sub p (instrs ++ [instr])).bytes
      = (Component.sub p instrs).bytes ++ instr.bytes := by
  simp [Component.bytes]

theorem decodeOp_size_le3 (c : Nat) (b1 b2 dq : Bool) : (decodeOp c b1 b2 dq).size ≤ 3 := by
  unfold decodeOp
  split_ifs <;> simp

theorem decodeOp_size_le (c : Nat) (dq : Bool) (n : Nat) (h1 : 1 ≤ n) :
    (decodeOp c (decide (1 < n)) (decide (2 < n)) dq).size ≤ n := by
  unfold decodeOp
  split_ifs <;> simp_all <;> omega

/-- The decoded instruction built from the 3-byte window at cursor `i`:
its position, a size bound, and the exact stored bytes. -/
theorem mkInstruction_facts (bb : List Nat) (i base : Nat) (dq : Bool) (h : i < bb.length) :
    (mkInstruction (i + base) ((bb.drop i).take 3) dq).position = i + base
    ∧ (mkInstruction (i + base) ((bb.drop i).take 3) dq).size ≤ bb.length - i
    ∧ (mkInstruction (i + base) ((bb.drop i).take 3) dq).bytes
        = (bb.drop i).take ((mkInstruction (i + base) ((bb.drop i).take 3) dq).size)
    ∧ (mkInstruction (i + base) ((bb.drop i).take 3) dq).bytes.length
        = (mkInstruction (i + base) ((bb.drop i).take 3) dq).size := by
  have hbslen : ((bb.drop i).take 3).length = min 3 (bb.length - i) := by
    simp [List.length_take]
  have hbs1 : 1 ≤ ((bb.drop i).take 3).length := by
    rw [hbslen]; omega
  have hsize_eq : (mkInstruction (i + base) ((bb.drop i).take 3) dq).size
      = (decodeOp (((bb.drop i).take 3).headD 0)
          (decide (1 < ((bb.drop i).take 3).length))
          (decide (2 < ((bb.drop i).take 3).length)) dq).size := rfl
  have hle : (mkInstruction (i + base) ((bb.drop i).take 3) dq).size
      ≤ ((bb.drop i).take 3).length := by
    rw [hsize_eq]
    exact decodeOp_size_le _ _ _ hbs1
  have hle3 : (mkInstruction (i + base) ((bb.drop i).take 3) dq).size ≤ 3 := by
    rw [hsize_eq]
    exact decodeOp_size_le3 _ _ _ _
  refine ⟨rfl, ?_, ?_, ?_⟩
  · rw [hbslen] at hle
    omega
  · show ((bb.drop i).take 3).take ((mkInstruction (i + base) ((bb.drop i).take 3) dq).size)
        = (bb.drop i).take ((mkInstruction (i + base) ((bb.drop i).take 3) dq).size)
    rw [List.take_take]
    congr 1
    omega
  · show (((bb.drop i).take 3).take
        ((mkInstruction (i + base) ((bb.drop i).take 3) dq).size)).length
        = (mkInstruction (i + base) ((bb.drop i).take 3) dq).size
    rw [List.length_take]
    omega

/-- The table-merging loop preserves the tiling chain, the flattened bytes,
word-freeness and well-formedness, for any fuel. -/
theorem mergeTablesLoop_facts (base : Nat) :
    ∀ (fuel : Nat) (acc : List Component) (e : Nat),
      chainOk base acc e →
      (∀ c ∈ acc, c.isWord = false) →
      (∀ c ∈ acc, compWf c) →
      chainOk base (mergeTablesLoop fuel acc) e
      ∧ compsBytes (mergeTablesLoop fuel acc).reverse = compsBytes acc.reverse
      ∧ (∀ c ∈ mergeTablesLoop fuel acc, c.isWord = false)
      ∧ (∀ c ∈ mergeTablesLoop fuel acc, compWf c) := by
  intro fuel
  induction fuel with
  | zero =>
      intro acc e hch hnw hwf
      exact ⟨hch, rfl, hnw, hwf⟩
  | succ fuel ih =>
      intro acc e hch hnw hwf
      match acc with
      | [] => exact ⟨hch, rfl, hnw, hwf⟩
      | [c] => exact ⟨hch, rfl, hnw, hwf⟩
      | c :: Component.sub q is2 :: rest => exact ⟨hch, rfl, hnw, hwf⟩
      | c :: Component.word q b1 b2 lbl :: rest => exact ⟨hch, rfl, hnw, hwf⟩
      | c :: Component.table q cs :: rest =>
          show chainOk base (mergeTablesLoop fuel (Component.table q (cs ++ c.bytes) :: rest)) e
            ∧ compsBytes (mergeTablesLoop fuel
                (Component.table q (cs ++ c.bytes) :: rest)).reverse
              = compsBytes ((c :: Component.table q cs :: rest)).reverse
            ∧ _ ∧ _
          obtain ⟨⟨hrest, hcpos⟩, he⟩ := hch
          have hcwf : compWf c := hwf c (by simp)
          have hclen : c.bytes.length = c.len := compWf_bytes_len c hcwf
          have hch2 : chainOk base (Component.table q (cs ++ c.bytes) :: rest) e := by
            refine ⟨hrest, ?_⟩
            simp only [Component.len, Component.position, List.length_append] at *
            omega
          have hnw2 : ∀ x ∈ Component.table q (cs ++ c.bytes) :: rest, x.isWord = false := by
            intro x hx
            rcases List.mem_cons.mp hx with hx | hx
            · subst hx; rfl
            · exact hnw x (by simp [hx])
          have hwf2 : ∀ x ∈ Component.table q (cs ++ c.bytes) :: rest, compWf x := by
            intro x hx
            rcases List.mem_cons.mp hx with hx | hx
            · subst hx; trivial
            · exact hwf x (by simp [hx])
          obtain ⟨r1, r2, r3, r4⟩ := ih (Component.table q (cs ++ c.bytes) :: rest) e hch2 hnw2 hwf2
          refine ⟨r1, ?_, r3, r4⟩
          rw [r2]
          rw [compsBytes_reverse_cons, compsBytes_reverse_cons, compsBytes_reverse_cons]
          simp [Component.bytes]

/-- `Bank._merge_invalid` preserves the tiling chain, the flattened bytes,
word-freeness and well-formedness. -/
theorem merge_invalid_facts (cfg : Config) (base : Nat) (acc : List Component) (e : Nat)
    (hch : chainOk base acc e) (hnw : ∀ c ∈ acc, c.isWord = false)
    (hwf : ∀ c ∈ acc, compWf c) :
    chainOk base (merge_invalid cfg acc) e
    ∧ compsBytes (merge_invalid cfg acc).reverse = compsBytes acc.reverse
    ∧ (∀ c ∈ merge_invalid cfg acc, c.isWord = false)
    ∧ (∀ c ∈ merge_invalid cfg acc, compWf c) := by
  match acc with
  | [] => exact ⟨hch, rfl, hnw, hwf⟩
  | Component.table p bs :: rest => exact ⟨hch, rfl, hnw, hwf⟩
  | Component.word p b1 b2 lbl :: rest => exact ⟨hch, rfl, hnw, hwf⟩
  | Component.sub p instrs :: rest =>
      simp only [merge_invalid]
      by_cases hv : is_valid cfg instrs = true
      · simp only [if_pos hv]
        exact ⟨hch, trivial, hnw, hwf⟩
      · simp only [if_neg hv]
        obtain ⟨hrest, he⟩ := hch
        have hswf : compWf (Component.sub p instrs) := hwf _ (by simp)
        have hslen : (subBytes instrs).length = (Component.sub p instrs).len :=
          compWf_bytes_len (Component.sub p instrs) hswf
        have hch2 : chainOk base (Component.table p (subBytes instrs) :: rest) e := by
          refine ⟨hrest, ?_⟩
          simp only [Component.len, Component.position] at *
          omega
        have hnw2 : ∀ x ∈ Component.table p (subBytes instrs) :: rest, x.isWord = false := by
          intro x hx
          rcases List.mem_cons.mp hx with hx | hx
          · subst hx; rfl
          · exact hnw x (by simp [hx])
        have hwf2 : ∀ x ∈ Component.table p (subBytes instrs) :: rest, compWf x := by
          intro x hx
          rcases List.mem_cons.mp hx with hx | hx
          · subst hx; trivial
          · exact hwf x (by simp [hx])
        obtain ⟨r1, r2, r3, r4⟩ := mergeTablesLoop_facts base (rest.length + 1)
          (Component.table p (subBytes instrs) :: rest) e hch2 hnw2 hwf2
        refine ⟨r1, ?_, r3, r4⟩
        rw [r2, compsBytes_reverse_cons, compsBytes_reverse_cons]
        rfl

theorem stepDecodable_sub_incomplete (cfg : Config) (instr : Instruction) (p : Nat)
    (instrs : List Instruction) (rest : List Component)
    (h : is_complete cfg instrs = false) :
    stepDecodable cfg instr (Component.sub p instrs :: rest)
      = Component.sub p (instrs ++ [instr]) :: rest := by
  simp [stepDecodable, h]

theorem stepDecodable_sub_complete (cfg : Config) (instr : Instruction) (p : Nat)
    (instrs : List Instruction) (rest : List Component)
    (h : is_complete cfg instrs = true) :
    stepDecodable cfg instr (Component.sub p instrs :: rest)
      = Component.sub instr.position [instr]
          :: merge_invalid cfg (Component.sub p instrs :: rest) := by
  simp [stepDecodable, h]

/-- One decodable step preserves the loop invariant, advancing the cursor
by the instruction's length. -/
theorem stepDecodable_inv (cfg : Config) (base : Nat) (bb : List Nat) (i : Nat)
    (instr : Instruction)
    (hpos : instr.position = i + base)
    (hbytes : instr.bytes = (bb.drop i).take instr.size)
    (hblen : instr.bytes.length = instr.size)
    (hle : i + instr.size ≤ bb.length)
    (acc : List Component) (hInv : Inv base bb i acc) :
    Inv base bb (i + instr.size) (stepDecodable cfg instr acc) := by
  obtain ⟨hch, hbyteseq, hnw, hwf⟩ := hInv
  have htake : bb.take (i + instr.size) = bb.take i ++ instr.bytes := by
    rw [List.take_add bb i instr.size, ← hbytes]
  match acc with
  | [] =>
      have hi0 : i = 0 := by
        have : base + i = base := hch
        omega
      show Inv base bb (i + instr.size) [Component.sub instr.position [instr]]
      refine ⟨⟨?_, ?_⟩, ?_, ?_, ?_⟩
      · show instr.position = base
        omega
      · simp only [Component.len, Component.position, List.map_cons, List.map_nil, List.sum_cons, List.sum_nil]
        omega
      · rw [htake]
        rw [← hbyteseq]
        simp [compsBytes, Component.bytes]
      · intro c hc
        rcases List.mem_singleton.mp hc with rfl
        rfl
      · intro c hc
        rcases List.mem_singleton.mp hc with rfl
        intro x hx
        rcases List.mem_singleton.mp hx with rfl
        exact hblen
  | Component.sub p instrs :: rest =>
      by_cases hic : is_complete cfg instrs = true
      · rw [stepDecodable_sub_complete cfg instr p instrs rest hic]
        obtain ⟨m1, m2, m3, m4⟩ := merge_invalid_facts cfg base
          (Component.sub p instrs :: rest) (base + i) hch hnw hwf
        refine ⟨⟨?_, ?_⟩, ?_, ?_, ?_⟩
        · show chainOk base (merge_invalid cfg (Component.sub p instrs :: rest))
            instr.position
          rw [hpos]
          rw [show i + base = base + i by omega]
          exact m1
        · simp only [Component.len, Component.position, List.map_cons, List.map_nil, List.sum_cons, List.sum_nil]
          omega
        · rw [compsBytes_reverse_cons, m2, hbyteseq, htake]
          simp [Component.bytes]
        · intro c hc
          rcases List.mem_cons.mp hc with rfl | hc
          · rfl
          · exact m3 c hc
        · intro c hc
          rcases List.mem_cons.mp hc with rfl | hc
          · intro x hx
            rcases List.mem_singleton.mp hx with rfl
            exact hblen
          · exact m4 c hc
      · have hic2 : is_complete cfg instrs = false := by
          cases hb : is_complete cfg instrs with
          | false => rfl
          | true => exact absurd hb hic
        rw [stepDecodable_sub_incomplete cfg instr p instrs rest hic2]
        obtain ⟨hrest, hend⟩ := hch
        refine ⟨⟨hrest, ?_⟩, ?_, ?_, ?_⟩
        · rw [show (Component.sub p (instrs ++ [instr])).position
              = (Component.sub p instrs).position from rfl]
          rw [subLen_append]
          omega
        · rw [compsBytes_reverse_cons, htake, ← hbyteseq, compsBytes_reverse_cons]
          rw [subBytes_append]
          simp
        · intro c hc
          rcases List.mem_cons.mp hc with rfl | hc
          · rfl
          · exact hnw c (by simp [hc])
        · intro c hc
          rcases List.mem_cons.mp hc with rfl | hc
          · intro x hx
            rcases List.mem_append.mp hx with hx | hx
            · exact hwf (Component.sub p instrs) (by simp) x hx
            · rcases List.mem_singleton.mp hx with rfl
              exact hblen
          · exact hwf c (by simp [hc])
  | Component.table p bs :: rest =>
      show Inv base bb (i + instr.size)
        (Component.sub instr.position [instr] :: Component.table p bs :: rest)
      refine ⟨⟨?_, ?_⟩, ?_, ?_, ?_⟩
      · show chainOk base (Component.table p bs :: rest) instr.position
        rw [hpos, show i + base = base + i by omega]
        exact hch
      · simp only [Component.len, Component.position, List.map_cons, List.map_nil, List.sum_cons, List.sum_nil]
        omega
      · rw [compsBytes_reverse_cons, hbyteseq, htake]
        simp [Component.bytes]
      · intro c hc
        rcases List.mem_cons.mp hc with rfl | hc
        · rfl
        · exact hnw c (by simp [hc])
      · intro c hc
        rcases List.mem_cons.mp hc with rfl | hc
        · intro x hx
          rcases List.mem_singleton.mp hx with rfl
          exact hblen
        · exact hwf c (by simp [hc])
  | Component.word p b1 b2 lbl :: rest =>
      show Inv base bb (i + instr.size)
        (Component.sub instr.position [instr] :: Component.word p b1 b2 lbl :: rest)
      refine ⟨⟨?_, ?_⟩, ?_, ?_, ?_⟩
      · show chainOk base (Component.word p b1 b2 lbl :: rest) instr.position
        rw [hpos, show i + base = base + i by omega]
        exact hch
      · simp only [Component.len, Component.position, List.map_cons, List.map_nil, List.sum_cons, List.sum_nil]
        omega
      · rw [compsBytes_reverse_cons, hbyteseq, htake]
        simp [Component.bytes]
      · intro c hc
        rcases List.mem_cons.mp hc with rfl | hc
        · rfl
        · exact hnw c (by simp [hc])
      · intro c hc
        rcases List.mem_cons.mp hc with rfl | hc
        · intro x hx
          rcases List.mem_singleton.mp hx with rfl
          exact hblen
        · exact hwf c (by simp [hc])

/-- One not-decodable step preserves the loop invariant, advancing the
cursor by one byte. -/
theorem stepData_inv (cfg : Config) (base : Nat) (bb : List Nat) (i : Nat)
    (hlt : i < bb.length) (acc : List Component) (hInv : Inv base bb i acc) :
    Inv base bb (i + 1) (stepData cfg base i (bb.getD i 0) acc) := by
  obtain ⟨hch, hbyteseq, hnw, hwf⟩ := hInv
  have htake : bb.take (i + 1) = bb.take i ++ [bb.getD i 0] := by
    rw [List.take_succ]
    congr 1
    simp [List.getD, List.getElem?_eq_getElem hlt]
  match acc with
  | [] =>
      have hi0 : i = 0 := by
        have : base + i = base := hch
        omega
      show Inv base bb (i + 1) [Component.table (i + base) [bb.getD i 0]]
      refine ⟨⟨?_, ?_⟩, ?_, ?_, ?_⟩
      · show i + base = base
        omega
      · simp only [Component.len, Component.position, List.length_cons, List.length_nil]
        omega
      · rw [htake, ← hbyteseq]
        simp [compsBytes, Component.bytes]
      · intro c hc
        rcases List.mem_singleton.mp hc with rfl
        rfl
      · intro c hc
        rcases List.mem_singleton.mp hc with rfl
        trivial
  | Component.table p bs :: rest =>
      show Inv base bb (i + 1) (Component.table p (bs ++ [bb.getD i 0]) :: rest)
      obtain ⟨hrest, hend⟩ := hch
      refine ⟨⟨hrest, ?_⟩, ?_, ?_, ?_⟩
      · simp only [Component.len, Component.position, List.length_append,
          List.length_cons, List.length_nil] at *
        omega
      · rw [compsBytes_reverse_cons, htake, ← hbyteseq, compsBytes_reverse_cons]
        simp [Component.bytes]
      · intro c hc
        rcases List.mem_cons.mp hc with rfl | hc
        · rfl
        · exact hnw c (by simp [hc])
      · intro c hc
        rcases List.mem_cons.mp hc with rfl | hc
        · trivial
        · exact hwf c (by simp [hc])
  | Component.word p b1 b2 lbl :: rest =>
      show Inv base bb (i + 1)
        (Component.table (i + base) [bb.getD i 0] :: Component.word p b1 b2 lbl :: rest)
      refine ⟨⟨?_, ?_⟩, ?_, ?_, ?_⟩
      · show chainOk base (Component.word p b1 b2 lbl :: rest) (i + base)
        rw [show i + base = base + i by omega]
        exact hch
      · simp only [Component.len, Component.position, List.length_cons, List.length_nil]
        omega
      · rw [compsBytes_reverse_cons, htake, hbyteseq]
        simp [Component.bytes]
      · intro c hc
        rcases List.mem_cons.mp hc with rfl | hc
        · rfl
        · exact hnw c (by simp [hc])
      · intro c hc
        rcases List.mem_cons.mp hc with rfl | hc
        · trivial
        · exact hwf c (by simp [hc])
  | Component.sub p instrs :: rest =>
      obtain ⟨m1, m2, m3, m4⟩ := merge_invalid_facts cfg base
        (Component.sub p instrs :: rest) (base + i) hch hnw hwf
      match hm : merge_invalid cfg (Component.sub p instrs :: rest) with
      | Component.table q cs :: r2 =>
          have hred : stepData cfg base i (bb.getD i 0) (Component.sub p instrs :: rest)
              = Component.table q (cs ++ [bb.getD i 0]) :: r2 := by
            simp [stepData, hm]
          rw [hred]
          rw [hm] at m1 m2 m3 m4
          obtain ⟨hrest, hend⟩ := m1
          refine ⟨⟨hrest, ?_⟩, ?_, ?_, ?_⟩
          · simp only [Component.len, Component.position, List.length_append,
              List.length_cons, List.length_nil] at *
            omega
          · rw [compsBytes_reverse_cons, htake, ← hbyteseq, ← m2, compsBytes_reverse_cons]
            simp [Component.bytes]
          · intro c hc
            rcases List.mem_cons.mp hc with rfl | hc
            · rfl
            · exact m3 c (by simp [hc])
          · intro c hc
            rcases List.mem_cons.mp hc with rfl | hc
            · trivial
            · exact m4 c (by simp [hc])
      | [] =>
          have hred : stepData cfg base i (bb.getD i 0) (Component.sub p instrs :: rest)
              = [Component.table (i + base) [bb.getD i 0]] := by
            simp [stepData, hm]
          rw [hred]
          rw [hm] at m1 m2
          have hi0 : i = 0 := by
            have : base + i = base := m1
            omega
          refine ⟨⟨?_, ?_⟩, ?_, ?_, ?_⟩
          · show i + base = base
            omega
          · simp only [Component.len, Component.position, List.length_cons, List.length_nil]
            omega
          · rw [htake, ← hbyteseq, ← m2]
            simp [compsBytes, Component.bytes]
          · intro c hc
            rcases List.mem_singleton.mp hc with rfl
            rfl
          · intro c hc
            rcases List.mem_singleton.mp hc with rfl
            trivial
      | Component.sub q is2 :: r2 =>
          have hred : stepData cfg base i (bb.getD i 0) (Component.sub p instrs :: rest)
              = Component.table (i + base) [bb.getD i 0]
                  :: Component.sub q is2 :: r2 := by
            simp [stepData, hm]
          rw [hred]
          rw [hm] at m1 m2 m3 m4
          refine ⟨⟨?_, ?_⟩, ?_, ?_, ?_⟩
          · show chainOk base (Component.sub q is2 :: r2) (i + base)
            rw [show i + base = base + i by omega]
            exact m1
          · simp only [Component.len, Component.position, List.length_cons, List.length_nil]
            omega
          · rw [compsBytes_reverse_cons, htake, ← hbyteseq, ← m2]
            simp [Component.bytes]
          · intro c hc
            rcases List.mem_cons.mp hc with rfl | hc
            · rfl
            · exact m3 c (by simp [hc])
          · intro c hc
            rcases List.mem_cons.mp hc with rfl | hc
            · trivial
            · exact m4 c (by simp [hc])
      | Component.word q b1 b2 lbl :: r2 =>
          have hfalse : (Component.word q b1 b2 lbl).isWord = false := by
            rw [hm] at m3
            exact m3 _ (by simp)
          simp [Component.isWord] at hfalse

/-- Running the disassembly loop with enough fuel carries the invariant to
the end of the bank bytes. -/
theorem disassembleLoop_inv (cfg : Config) (dq : Bool) (base : Nat) (bb : List Nat) :
    ∀ (fuel i : Nat) (acc : List Component),
      bb.length - i ≤ fuel → i ≤ bb.length → Inv base bb i acc →
      Inv base bb bb.length (disassembleLoop cfg dq base bb fuel i acc) := by
  intro fuel
  induction fuel with
  | zero =>
      intro i acc hfuel hile hInv
      have hi : i = bb.length := by omega
      subst hi
      exact hInv
  | succ fuel ih =>
      intro i acc hfuel hile hInv
      by_cases hlt : i < bb.length
      · rw [disassembleLoop, if_pos hlt]
        by_cases hop : (mkInstruction (i + base) ((bb.drop i).take 3) dq).op ≠ ""
        · rw [if_pos hop]
          obtain ⟨f1, f2, f3, f4⟩ := mkInstruction_facts bb i base dq hlt
          have hp : 1 ≤ (mkInstruction (i + base) ((bb.drop i).take 3) dq).size :=
            decode_size_pos _ _ _ _ hop
          exact ih _ _ (by omega) (by omega)
            (stepDecodable_inv cfg base bb i _ f1 f3 f4 (by omega) acc hInv)
        · rw [if_neg hop]
          exact ih _ _ (by omega) (by omega) (stepData_inv cfg base bb i hlt acc hInv)
      · rw [disassembleLoop, if_neg hlt]
        have hi : i = bb.length := by omega
        subst hi
        exact hInv

theorem tilesEnd_append_one (p : Nat) (l : List Component) (c : Component) :
    tilesEnd p (l ++ [c]) =
      match tilesEnd p l with
      | some m => if c.position = m then some (m + c.len) else none
      | none => none := by
  induction l generalizing p with
  | nil => simp [tilesEnd]
  | cons d rest ih =>
      by_cases hd : d.position = p
      · simp only [List.cons_append, tilesEnd, if_pos hd]
        exact ih (p + d.len)
      · simp only [List.cons_append, tilesEnd, if_neg hd]

/-- The reversed accumulator's tiling chain yields a successful forward
tiling check. -/
theorem chainOk_tilesEnd (base : Nat) :
    ∀ (acc : List Component) (e : Nat), chainOk base acc e →
      tilesEnd base acc.reverse = some e := by
  intro acc
  induction acc with
  | nil =>
      intro e he
      simp only [chainOk] at he
      simp [tilesEnd, he]
  | cons c rest ih =>
      intro e he
      obtain ⟨hrest, hend⟩ := he
      rw [List.reverse_cons, tilesEnd_append_one, ih c.position hrest]
      simp [hend]

/-- With everything well-formed, total component length equals total byte
count. -/
theorem sumLen_eq_bytes_length (comps : List Component) (h : ∀ c ∈ comps, compWf c) :
    sumLen comps = (compsBytes comps).length := by
  induction comps with
  | nil => rfl
  | cons c rest ih =>
      have hc := compWf_bytes_len c (h c (by simp))
      have hr := ih (fun x hx => h x (by simp [hx]))
      simp only [sumLen, compsBytes, List.map_cons, List.sum_cons, List.flatten_cons,
        List.length_append] at *
      omega

theorem six_getD_eq (l : List Nat) (h : l.length = 6) :
    [l.getD 0 0, l.getD 1 0] ++ [l.getD 2 0, l.getD 3 0] ++ [l.getD 4 0, l.getD 5 0] = l := by
  match l, h with
  | [a, b, c, d, e, f], _ => rfl

/-- Master facts about `Bank._disassemble` on a bank of at least 6 bytes:
byte conservation, well-formedness, and the component-list shape with and
without the interrupt-vector Words. -/
theorem disassemble_facts (cfg : Config) (dq : Bool) (base number fixed : Nat)
    (full : List Nat) (h6 : 6 ≤ full.length) :
    compsBytes (disassemble cfg dq base (full.take (full.length - 6))
        (full.drop (full.length - 6)) number fixed full.length) = full
    ∧ (∀ c ∈ disassemble cfg dq base (full.take (full.length - 6))
        (full.drop (full.length - 6)) number fixed full.length, compWf c)
    ∧ (base = 0x10000 - full.length →
        ∃ pre, disassemble cfg dq base (full.take (full.length - 6))
            (full.drop (full.length - 6)) number fixed full.length
            = pre ++ vectorWords number fixed full.length (full.drop (full.length - 6))
          ∧ tilesEnd base pre = some (base + (full.length - 6))
          ∧ (∀ c ∈ pre, c.isWord = false))
    ∧ (base ≠ 0x10000 - full.length →
        tilesEnd base (disassemble cfg dq base (full.take (full.length - 6))
            (full.drop (full.length - 6)) number fixed full.length)
          = some (base + full.length)
        ∧ (∀ c ∈ disassemble cfg dq base (full.take (full.length - 6))
            (full.drop (full.length - 6)) number fixed full.length, c.isWord = false)
        ∧ ∃ rest q bs, disassemble cfg dq base (full.take (full.length - 6))
              (full.drop (full.length - 6)) number fixed full.length
              = rest ++ [Component.table q bs]
            ∧ 6 ≤ bs.length
            ∧ bs.drop (bs.length - 6) = full.drop (full.length - 6)) := by
  have hcode_len : (full.take (full.length - 6)).length = full.length - 6 := by
    rw [List.length_take]; omega
  have hiv_len : (full.drop (full.length - 6)).length = 6 := by
    rw [List.length_drop]; omega
  have hsplit : full.take (full.length - 6) ++ full.drop (full.length - 6) = full :=
    List.take_append_drop _ full
  have hivb : [(full.drop (full.length - 6)).getD 0 0, (full.drop (full.length - 6)).getD 1 0,
      (full.drop (full.length - 6)).getD 2 0, (full.drop (full.length - 6)).getD 3 0,
      (full.drop (full.length - 6)).getD 4 0, (full.drop (full.length - 6)).getD 5 0]
      = full.drop (full.length - 6) := by
    have := six_getD_eq (full.drop (full.length - 6)) hiv_len
    simpa using this
  have hInv0 : Inv base (full.take (full.length - 6)) 0 [] := by
    refine ⟨rfl, rfl, ?_, ?_⟩ <;> intro c hc <;> exact absurd hc (List.not_mem_nil c)
  obtain ⟨hch, hbytes, hnw, hwf⟩ := disassembleLoop_inv cfg dq base
    (full.take (full.length - 6)) (full.take (full.length - 6)).length 0 []
    (by omega) (by omega) hInv0
  have hbytes2 : compsBytes (disassembleLoop cfg dq base (full.take (full.length - 6))
      (full.take (full.length - 6)).length 0 []).reverse = full.take (full.length - 6) := by
    rw [hbytes, List.take_length]
  simp only [disassemble, disassembleRev]
  rw [if_pos (show (full.drop (full.length - 6)).length ≠ 0 by omega)]
  generalize hgen : disassembleLoop cfg dq base (full.take (full.length - 6))
    (full.take (full.length - 6)).length 0 [] = acc at hch hbytes2 hnw hwf
  clear hbytes hInv0
  simp only [List.append_assoc]
  rw [show (Component.word (full.length - 6) ((full.drop (full.length - 6)).getD 0 0)
        ((full.drop (full.length - 6)).getD 1 0)
        ((if fixed == 0 then "b" ++ toString number ++ "_" else "") ++ "NMI")).bytes
      ++ ((Component.word (full.length - 4) ((full.drop (full.length - 6)).getD 2 0)
        ((full.drop (full.length - 6)).getD 3 0)
        ((if fixed == 0 then "b" ++ toString number ++ "_" else "") ++ "RESET")).bytes
      ++ (Component.word (full.length - 2) ((full.drop (full.length - 6)).getD 4 0)
        ((full.drop (full.length - 6)).getD 5 0)
        ((if fixed == 0 then "b" ++ toString number ++ "_" else "") ++ "IRQ")).bytes)
      = full.drop (full.length - 6) from by
    simp only [Component.bytes, List.cons_append, List.nil_append]
    exact hivb]
  by_cases hb : base = 0x10000 - full.length
  · rw [if_pos (show (base == 0x10000 - full.length) = true from beq_iff_eq.mpr hb)]
    have hrev : (Component.word (full.length - 2) ((full.drop (full.length - 6)).getD 4 0)
          ((full.drop (full.length - 6)).getD 5 0)
          ((if fixed == 0 then "b" ++ toString number ++ "_" else "") ++ "IRQ")
        :: Component.word (full.length - 4) ((full.drop (full.length - 6)).getD 2 0)
          ((full.drop (full.length - 6)).getD 3 0)
          ((if fixed == 0 then "b" ++ toString number ++ "_" else "") ++ "RESET")
        :: Component.word (full.length - 6) ((full.drop (full.length - 6)).getD 0 0)
          ((full.drop (full.length - 6)).getD 1 0)
          ((if fixed == 0 then "b" ++ toString number ++ "_" else "") ++ "NMI")
        :: acc).reverse
        = acc.reverse ++ vectorWords number fixed full.length (full.drop (full.length - 6)) := by
      simp [vectorWords]
    refine ⟨?_, ?_, ?_, fun hne => absurd hb hne⟩
    · rw [hrev, compsBytes_append, hbytes2]
      simp only [vectorWords, compsBytes, Component.bytes, List.map_cons, List.map_nil,
        List.flatten_cons, List.flatten_nil, List.append_nil, List.cons_append,
        List.nil_append]
      have h2 := hivb
      simp only [List.cons_append, List.nil_append] at h2 ⊢
      rw [h2]
      exact hsplit
    · rw [hrev]
      intro c hc
      rcases List.mem_append.mp hc with hc | hc
      · exact hwf c (List.mem_reverse.mp hc)
      · simp only [vectorWords, List.mem_cons, List.mem_singleton] at hc
        rcases hc with rfl | rfl | rfl | hc
        · trivial
        · trivial
        · trivial
        · exact absurd hc (List.not_mem_nil _)
    · intro _
      refine ⟨acc.reverse, hrev, ?_, ?_⟩
      · have := chainOk_tilesEnd base acc _ hch
        rw [hcode_len] at this
        exact this
      · intro c hc
        exact hnw c (List.mem_reverse.mp hc)
  · rw [if_neg (show ¬ (base == 0x10000 - full.length) = true by simp [hb])]
    match acc, hch, hbytes2, hnw, hwf with
    | [], hch, hbytes2, hnw, hwf =>
        have h0 : full.take (full.length - 6) = [] := by
          rw [← hbytes2]; rfl
        have hivfull : full.drop (full.length - 6) = full := by
          rw [h0] at hsplit
          simpa using hsplit
        refine ⟨?_, ?_, fun heq => absurd heq hb, fun hne => ⟨?_, ?_, ?_⟩⟩
        · simp only [List.reverse_cons, List.reverse_nil, List.nil_append, compsBytes,
            Component.bytes, List.map_cons, List.map_nil, List.flatten_cons,
            List.flatten_nil, List.append_nil]
          exact hivfull
        · intro c hc
          simp only [List.reverse_cons, List.reverse_nil, List.nil_append,
            List.mem_singleton] at hc
          subst hc
          trivial
        · have hchain : chainOk base
              (Component.table (base + (full.take (full.length - 6)).length)
                (full.drop (full.length - 6)) :: []) (base + full.length) := by
            refine ⟨hch, ?_⟩
            simp only [Component.position, Component.len]
            omega
          have := chainOk_tilesEnd base _ _ hchain
          simpa using this
        · intro c hc
          simp only [List.reverse_cons, List.reverse_nil, List.nil_append,
            List.mem_singleton] at hc
          subst hc
          rfl
        · refine ⟨[], base + (full.take (full.length - 6)).length,
            full.drop (full.length - 6), by simp, by omega, ?_⟩
          rw [hiv_len]
          simp
    | Component.table p bs :: rest, hch, hbytes2, hnw, hwf =>
        obtain ⟨hrest, hend⟩ := hch
        rw [compsBytes_reverse_cons] at hbytes2
        refine ⟨?_, ?_, fun heq => absurd heq hb, fun hne => ⟨?_, ?_, ?_⟩⟩
        · rw [List.reverse_cons, compsBytes_append]
          show compsBytes rest.reverse
              ++ ((Component.table p (bs ++ full.drop (full.length - 6))).bytes ++ []) = full
          rw [List.append_nil]
          show compsBytes rest.reverse ++ (bs ++ full.drop (full.length - 6)) = full
          rw [← List.append_assoc]
          rw [show compsBytes rest.reverse ++ bs = full.take (full.length - 6) from hbytes2]
          exact hsplit
        · intro c hc
          rw [List.reverse_cons] at hc
          rcases List.mem_append.mp hc with hc | hc
          · exact hwf c (by simp [List.mem_reverse.mp hc])
          · rcases List.mem_singleton.mp hc with rfl
            trivial
        · have hchain : chainOk base
              (Component.table p (bs ++ full.drop (full.length - 6)) :: rest)
              (base + full.length) := by
            refine ⟨hrest, ?_⟩
            simp only [Component.position, Component.len, List.length_append] at *
            omega
          have := chainOk_tilesEnd base _ _ hchain
          simpa using this
        · intro c hc
          rw [List.reverse_cons] at hc
          rcases List.mem_append.mp hc with hc | hc
          · exact hnw c (by simp [List.mem_reverse.mp hc])
          · rcases List.mem_singleton.mp hc with rfl
            rfl
        · refine ⟨rest.reverse, p, bs ++ full.drop (full.length - 6),
            by rw [List.reverse_cons], ?_, ?_⟩
          · simp only [List.length_append]
            omega
          · rw [show (bs ++ full.drop (full.length - 6)).length - 6 = bs.length by
              simp only [List.length_append]
              omega]
            exact List.drop_left bs _
    | Component.sub p is2 :: rest, hch, hbytes2, hnw, hwf =>
        refine ⟨?_, ?_, fun heq => absurd heq hb, fun hne => ⟨?_, ?_, ?_⟩⟩
        · rw [List.reverse_cons, compsBytes_append]
          show compsBytes (Component.sub p is2 :: rest).reverse
              ++ ((Component.table (base + (full.take (full.length - 6)).length)
                (full.drop (full.length - 6))).bytes ++ []) = full
          rw [List.append_nil, hbytes2]
          exact hsplit
        · intro c hc
          rw [List.reverse_cons] at hc
          rcases List.mem_append.mp hc with hc | hc
          · exact hwf c (List.mem_reverse.mp hc)
          · rcases List.mem_singleton.mp hc with rfl
            trivial
        · have hchain : chainOk base
              (Component.table (base + (full.take (full.length - 6)).length)
                (full.drop (full.length - 6)) :: Component.sub p is2 :: rest)
              (base + full.length) := by
            refine ⟨hch, ?_⟩
            simp only [Component.position, Component.len]
            omega
          have := chainOk_tilesEnd base _ _ hchain
          simpa using this
        · intro c hc
          rw [List.reverse_cons] at hc
          rcases List.mem_append.mp hc with hc | hc
          · exact hnw c (List.mem_reverse.mp hc)
          · rcases List.mem_singleton.mp hc with rfl
            rfl
        · refine ⟨(Component.sub p is2 :: rest).reverse,
            base + (full.take (full.length - 6)).length,
            full.drop (full.length - 6), by rw [List.reverse_cons], by omega, ?_⟩
          rw [hiv_len]
          simp
    | Component.word p b1 b2 lbl :: rest, hch, hbytes2, hnw, hwf =>
        have hw := hnw (Component.word p b1 b2 lbl) (by simp)
        simp [Component.isWord] at hw

/-- `Bank.__init__` always ends with a single `_disassemble` run at the
final base. -/
theorem bankOf_eq (cfg : Config) (dq : Bool) (number baseArg : Nat) (full : List Nat)
    (fixed : Nat) :
    ∃ b, bankOf cfg dq number baseArg full fixed
      = ⟨b, disassemble cfg dq b (full.take (full.length - 6))
          (full.drop (full.length - 6)) number fixed full.length⟩ := by
  simp only [bankOf]
  split_ifs <;> exact ⟨_, rfl⟩

/-! ## C5 -/

/-- C5: for every Bank of at least 6 bytes (smaller banks abort
construction in the source), the concatenation of the components' bytes is
exactly the input bytes, and the component lengths sum to the input
length. -/
theorem C5_byte_conservation (cfg : Config) (dq : Bool) (number baseArg fixed : Nat)
    (full : List Nat) (h6 : 6 ≤ full.length) :
    compsBytes (bankOf cfg dq number baseArg full fixed).components = full
    ∧ sumLen (bankOf cfg dq number baseArg full fixed).components = full.length := by
  obtain ⟨b, hb⟩ := bankOf_eq cfg dq number baseArg full fixed
  rw [hb]
  obtain ⟨f1, f2, _, _⟩ := disassemble_facts cfg dq b number fixed full h6
  exact ⟨f1, by rw [sumLen_eq_bytes_length _ f2, f1]⟩

/-- Witness for C5 at the concrete 10-byte bank `c10bytes`. -/
theorem C5_witness :
    compsBytes (bankOf cfgDefault false 0 0x8000 c10bytes 0).components = c10bytes
    ∧ sumLen (bankOf cfgDefault false 0 0x8000 c10bytes 0).components = c10bytes.length :=
  C5_byte_conservation cfgDefault false 0 0x8000 0 c10bytes (by decide)

/-! ## C4 -/

/-- C4: the components of a Bank end in the three interrupt-vector Words
(labelled NMI/RESET/IRQ, bank-number-prefixed exactly when the fixed-bank
count is zero) if and only if the final base plus the bank size is
0x10000; in every other bank the six vector bytes are instead the tail of
a trailing Table (and no Word component exists at all). -/
theorem C4_vector_placement (cfg : Config) (dq : Bool) (number baseArg fixed : Nat)
    (full : List Nat) (h6 : 6 ≤ full.length) (hmax : full.length ≤ 0x10000) :
    ((∃ pre, (bankOf cfg dq number baseArg full fixed).components
        = pre ++ vectorWords number fixed full.length (full.drop (full.length - 6)))
      ↔ (bankOf cfg dq number baseArg full fixed).base + full.length = 0x10000)
    ∧ ((bankOf cfg dq number baseArg full fixed).base + full.length ≠ 0x10000 →
        (∀ c ∈ (bankOf cfg dq number baseArg full fixed).components, c.isWord = false)
        ∧ ∃ rest q bs, (bankOf cfg dq number baseArg full fixed).components
            = rest ++ [Component.table q bs]
          ∧ 6 ≤ bs.length
          ∧ bs.drop (bs.length - 6) = full.drop (full.length - 6)) := by
  obtain ⟨b, hb⟩ := bankOf_eq cfg dq number baseArg full fixed
  rw [hb]
  dsimp only
  obtain ⟨f1, f2, f3, f4⟩ := disassemble_facts cfg dq b number fixed full h6
  by_cases hcond : b = 0x10000 - full.length
  · obtain ⟨pre, hpre, _, _⟩ := f3 hcond
    constructor
    · constructor
      · intro _
        omega
      · intro _
        exact ⟨pre, hpre⟩
    · intro hne
      exact absurd (by omega) hne
  · obtain ⟨ft, fnw, ftail⟩ := f4 hcond
    constructor
    · constructor
      · rintro ⟨pre, hpre⟩
        have hmem : Component.word (full.length - 6)
            ((full.drop (full.length - 6)).getD 0 0) ((full.drop (full.length - 6)).getD 1 0)
            ((if fixed == 0 then "b" ++ toString number ++ "_" else "") ++ "NMI")
            ∈ disassemble cfg dq b (full.take (full.length - 6))
              (full.drop (full.length - 6)) number fixed full.length := by
          rw [hpre]
          simp [vectorWords]
        have := fnw _ hmem
        simp [Component.isWord] at this
      · intro habs
        exact absurd (by omega) hcond
    · intro _
      exact ⟨fnw, ftail⟩

/-- Witness for C4 at the concrete last bank `c3bytes` (base 0xfff0, so
the Words are present). -/
theorem C4_witness :
    (∃ pre, (bankOf cfgDefault false 0 0xfff0 c3bytes 0).components
        = pre ++ vectorWords 0 0 c3bytes.length (c3bytes.drop (c3bytes.length - 6)))
      ↔ (bankOf cfgDefault false 0 0xfff0 c3bytes 0).base + c3bytes.length = 0x10000 :=
  (C4_vector_placement cfgDefault false 0 0xfff0 0 c3bytes (by decide) (by decide)).1

/-! ## C3 -/

/-- C3 counterexample: on the 16-byte last bank `c3bytes` at base 0xfff0
the interrupt-vector Words are created with positions `len-6`, `len-4`,
`len-2` (the base is not added), so the adjacency equation
`component[i].position + len(component[i]) = component[i+1].position`
fails: the code components end at 0xfffa but the NMI Word sits at
position 10. -/
theorem C3_counterexample :
    adjacentTiled (bankOf cfgDefault false 0 0xfff0 c3bytes 0).components = false := by
  decide

/-- C3 amended: the components before the interrupt-vector Words tile the
address range contiguously from the bank base; when `base + size ≠ 0x10000`
(no Words) the whole component list tiles up to `base + size`, and when the
Words are present they occupy positions `size-6`, `size-4`, `size-2`
(without the base offset), so the tiling equation holds at every adjacent
pair not involving a Word but breaks at the Words. -/
theorem C3_tiling (cfg : Config) (dq : Bool) (number baseArg fixed : Nat)
    (full : List Nat) (h6 : 6 ≤ full.length) (hmax : full.length ≤ 0x10000) :
    ((bankOf cfg dq number baseArg full fixed).base + full.length = 0x10000 →
      ∃ pre, (bankOf cfg dq number baseArg full fixed).components
          = pre ++ vectorWords number fixed full.length (full.drop (full.length - 6))
        ∧ tilesEnd (bankOf cfg dq number baseArg full fixed).base pre
            = some ((bankOf cfg dq number baseArg full fixed).base + (full.length - 6)))
    ∧ ((bankOf cfg dq number baseArg full fixed).base + full.length ≠ 0x10000 →
        tilesEnd (bankOf cfg dq number baseArg full fixed).base
            (bankOf cfg dq number baseArg full fixed).components
          = some ((bankOf cfg dq number baseArg full fixed).base + full.length)) := by
  obtain ⟨b, hb⟩ := bankOf_eq cfg dq number baseArg full fixed
  rw [hb]
  dsimp only
  obtain ⟨f1, f2, f3, f4⟩ := disassemble_facts cfg dq b number fixed full h6
  constructor
  · intro heq
    have hcond : b = 0x10000 - full.length := by omega
    obtain ⟨pre, hpre, htiles, _⟩ := f3 hcond
    exact ⟨pre, hpre, htiles⟩
  · intro hne
    have hcond : b ≠ 0x10000 - full.length := by omega
    exact (f4 hcond).1

/-- Witness for C3 amended at the concrete bank `c10bytes` (base 0x8000,
no vector Words: the whole list tiles). -/
theorem C3_witness :
    (bankOf cfgDefault false 0 0x8000 c10bytes 0).base + c10bytes.length ≠ 0x10000 ∧
    tilesEnd (bankOf cfgDefault false 0 0x8000 c10bytes 0).base
        (bankOf cfgDefault false 0 0x8000 c10bytes 0).components
      = some ((bankOf cfgDefault false 0 0x8000 c10bytes 0).base + c10bytes.length) :=
  ⟨by decide, (C3_tiling cfgDefault false 0 0x8000 0 c10bytes (by decide) (by decide)).2 (by decide)⟩
